import Mathlib

/-!
A verification development for a schema-aware document mapping layer
(`src/column.rs`, `src/model.rs`).  BSON values are embedded as a tree
type, BSON documents as ordered association lists with the
insert/remove semantics of the driver's `Document` type (insert replaces
the value in place when the key exists, appends otherwise; remove deletes
the key).  Fallible code paths return `Option`/`Except`: `none` models a
Rust panic (`unwrap` on `None`), `Except.error` models a returned error.
-/

namespace MongoRO

/-- Shallow embedding of BSON values.  Only the variants the verified code
inspects are distinguished; everything else would behave like `vStr`. -/
inductive BVal where
  | vNull : BVal
  | vBool : Bool → BVal
  | vInt : Int → BVal
  | vStr : String → BVal
  | vObjectId : String → BVal
  | vDateTime : Int → BVal
  | vArr : List BVal → BVal
  | vDoc : List (String × BVal) → BVal

/-- A BSON document: an ordered list of key/value pairs.  The driver's
`Document` keeps keys unique; the operations below preserve that. -/
abbrev Doc := List (String × BVal)

/-- Embeds `Document::get`: first value stored under `key`. -/
def dGet : Doc → String → Option BVal
  | [], _ => none
  | (k, v) :: rest, key => if k = key then some v else dGet rest key

/-- Embeds `Document::contains_key`. -/
def dContains (d : Doc) (key : String) : Bool :=
  (dGet d key).isSome

/-- Embeds `Document::insert`: replace in place when the key exists, append
otherwise. -/
def dInsert : Doc → String → BVal → Doc
  | [], key, v => [(key, v)]
  | (k, w) :: rest, key, v =>
    if k = key then (k, v) :: rest else (k, w) :: dInsert rest key v

/-- Embeds `Document::remove`: delete the (unique) entry under `key`. -/
def dRemove : Doc → String → Doc
  | [], _ => []
  | (k, w) :: rest, key =>
    if k = key then rest else (k, w) :: dRemove rest key

/-- Per-field metadata, `ColumnAttr` in `src/column.rs`. -/
structure ColumnAttr where
  asc : Bool
  desc : Bool
  unique : Bool
  sphere2d : Bool
  text : Option String
  hidden : Bool
  name : Option String
deriving DecidableEq, Repr

/-- Embeds `ColumnAttr::is_index` from `src/column.rs`. -/
def ColumnAttr.is_index (a : ColumnAttr) : Bool :=
  if a.unique || a.asc || a.desc || a.sphere2d || a.text.isSome then
    true
  else
    false

/-- The declared column set: identifier plus attributes, ordered as the
`HashMap` iteration the code performs. -/
abbrev Cols := List (String × ColumnAttr)

/-! ## Field transcoder (`hidden_fields`, `clear`, `rename_field`,
`inner_to_doc` in `src/model.rs`) -/

/-- The wire name of a column: the declared override when present, the
identifier otherwise (the `match attr.name` in `clear`). -/
def wireKey (c : String × ColumnAttr) : String :=
  match c.2.name with
  | none => c.1
  | some a => a

/-- Embeds `Model::hidden_fields`: every column flagged hidden whose identifier is
not in the query state's explicit-visible list. -/
def hidden_fields (cols : Cols) (visible : List String) : List String :=
  (cols.filter (fun c => c.2.hidden && decide (c.1 ∉ visible))).map Prod.fst

/-- One iteration of the loop in `Model::clear`. -/
def clearStep (data : Doc) (hid : List String) (t : Doc)
    (c : String × ColumnAttr) : Doc :=
  if c.1 ∈ hid then t
  else
    match dGet data (wireKey c) with
    | none => t
    | some v => dInsert t c.1 v

/-- Embeds `Model::clear`: overlay, onto the serialized default template `tmpl`,
every non-hidden declared column found in `data` under its wire name.
(The final typed deserialization is left at the document level.) -/
def clear (cols : Cols) (tmpl data : Doc) (hid : List String) : Doc :=
  cols.foldl (clearStep data hid) tmpl

/-- One iteration of the non-operator branch of `Model::rename_field`:
move the value from the identifier key to the wire key (insert under the
wire name, then remove the identifier key, in that order). -/
def renameStepPlain (d : Doc) (c : String × ColumnAttr) : Doc :=
  match c.2.name with
  | none => d
  | some a =>
    match dGet d c.1 with
    | none => d
    | some b => dRemove (dInsert d a b) c.1

/-- Embeds `Model::rename_field` with `is_opt = false`. -/
def rename_field_plain (cols : Cols) (d : Doc) : Doc :=
  cols.foldl renameStepPlain d

/-- Embeds `Model::inner_to_doc`, applied to the serialized payload `serialized =
to_document(&self.inner)`. -/
def inner_to_doc (cols : Cols) (serialized : Doc) : Doc :=
  rename_field_plain cols serialized

/-- The declared wire-name overrides, in column order. -/
def renTargets (cols : Cols) : List String :=
  cols.filterMap (fun c => c.2.name)

/-! ## Update and delete (`Model::update`, `Model::delete`) -/

/-- Embeds `QueryBuilder` from `src/model.rs` (`whr` stands for the raw-keyword
field `where`). -/
structure QueryBuilder where
  whr : List Doc
  all : Bool
  upsert : Bool
  select : Option Doc
  sort : Doc
  skip : Nat
  limit : Nat
  visible_fields : List String

/-- The default `QueryBuilder` (`Default::default()`). -/
def QueryBuilder.init : QueryBuilder :=
  ⟨[], false, false, none, [], 0, 0, []⟩

/-- Embeds `key.starts_with("$")`, modelled at the character level. -/
def opSigil (s : String) : Bool :=
  match s.data with
  | [] => false
  | c :: _ => c = '$'

/-- Does any top-level key begin with the operator sigil?  (the `is_opt`
detection loop in `Model::update`). -/
def docHasOpKey (d : Doc) : Bool :=
  d.any (fun kv => opSigil kv.1)

/-- Inner renaming of one column inside every operator sub-document: each
top-level value is unwrapped as a document (a non-document value is a
panic, modelled as `none`), then the identifier key is relocated to the
wire name. -/
def renameInnerOne (ident target : String) : Doc → Option Doc
  | [] => some []
  | (k, v) :: rest =>
    match v with
    | .vDoc i =>
      (renameInnerOne ident target rest).map fun r =>
        (k, .vDoc (match dGet i ident with
          | none => i
          | some b => dRemove (dInsert i target b) ident)) :: r
    | _ => none

/-- Embeds `Model::rename_field` with `is_opt = true`: for every column with a
wire-name override, rewrite one level deeper inside each operator
sub-document.  `none` models the unconditional `as_document_mut().unwrap()`
panic on a non-document top-level value. -/
def rename_field_op (cols : Cols) (d : Doc) : Option Doc :=
  cols.foldlM
    (fun d c =>
      match c.2.name with
      | none => some d
      | some a => renameInnerOne c.1 a d)
    d

/-- Embeds `Model::rename_field`: dispatch on the operator-form flag. -/
def rename_field (cols : Cols) (d : Doc) (isOpt : Bool) : Option Doc :=
  if isOpt then rename_field_op cols d else some (rename_field_plain cols d)

/-- The `add_times` block of `Model::update`: ensure a `"$set"`
sub-document exists and insert `updated_at` into it.  `none` models the
`as_document_mut().unwrap()` panic when `"$set"` holds a non-document. -/
def setStamp (d : Doc) (now : Int) : Option Doc :=
  let d' := if dContains d "$set" then d else dInsert d "$set" (.vDoc [])
  match dGet d' "$set" with
  | some (.vDoc s) =>
    some (dInsert d' "$set" (.vDoc (dInsert s "updated_at" (.vDateTime now))))
  | _ => none

/-- The upsert block of `Model::update`: insert `created_at` into a
`"$setOnInsert"` sub-document (only reached when upsert and `add_times`
are both active). -/
def setOnInsertStamp (d : Doc) (now : Int) : Option Doc :=
  let d' := if dContains d "$setOnInsert" then d
    else dInsert d "$setOnInsert" (.vDoc [])
  match dGet d' "$setOnInsert" with
  | some (.vDoc s) =>
    some (dInsert d' "$setOnInsert"
      (.vDoc (dInsert s "created_at" (.vDateTime now))))
  | _ => none

/-- The payload-preparation stage of `Model::update` (everything before the
filter check): operator detection, renaming, `"$set"` wrapping, and
timestamp injection. -/
def updatePrep (cols : Cols) (addTimes upsert : Bool) (d : Doc)
    (now : Int) : Option Doc :=
  let isOpt := docHasOpKey d
  match rename_field cols d isOpt with
  | none => none
  | some d1 =>
    let d2 := if isOpt then d1 else [("$set", .vDoc d1)]
    match (if addTimes then setStamp d2 now else some d2) with
    | none => none
    | some d3 =>
      if upsert && addTimes then setOnInsertStamp d3 now else some d3

/-- The error kind of usage failures (`std::io::ErrorKind::InvalidInput`
wrapped into a driver error). -/
inductive MErr where
  | invalidInput : MErr
deriving DecidableEq, Repr

/-- The single database call `Model::update` would dispatch. -/
structure UpdateDispatch where
  filter : Doc
  payload : Doc
  many : Bool
  upsert : Bool
  sort : Doc

/-- Embeds the filter construction: an `$and` document of the accumulated
clauses. -/
def mkFilter (whr : List Doc) : Doc :=
  [("$and", .vArr (whr.map .vDoc))]

/-- Embeds `Model::update` up to the point of dispatching its one database call:
payload preparation runs first (`none` = panic), then the empty-filter
check (`Except.error` = returned usage failure), then the dispatch
description. -/
def updateRun (cols : Cols) (addTimes : Bool) (qb : QueryBuilder)
    (d : Doc) (now : Int) : Option (Except MErr UpdateDispatch) :=
  match updatePrep cols addTimes qb.upsert d now with
  | none => none
  | some payload =>
    if qb.whr.isEmpty then some (.error .invalidInput)
    else some (.ok ⟨mkFilter qb.whr, payload, qb.all, qb.upsert, qb.sort⟩)

/-- Embeds `Model::delete` up to its one database call: the empty-filter check
comes first; the dispatch is the filter plus the multi-document flag and
the sort. -/
def deleteRun (qb : QueryBuilder) : Except MErr (Doc × Bool × Doc) :=
  if qb.whr.isEmpty then .error .invalidInput
  else .ok (mkFilter qb.whr, qb.all, qb.sort)

/-- Is a value a BSON sub-document?  (`Bson::as_document` succeeds). -/
def BVal.isDocVal : BVal → Bool
  | .vDoc _ => true
  | _ => false

/-! ## Create (`Model::create`, `Model::create_doc`) -/

/-- Embeds `Document::get_object_id(..).is_ok()`. -/
def isObjectIdVal : Option BVal → Bool
  | some (.vObjectId _) => true
  | _ => false

/-- Embeds `Document::get_datetime(..).is_ok()`. -/
def isDateTimeVal : Option BVal → Bool
  | some (.vDateTime _) => true
  | _ => false

/-- The `add_times` stamping block shared by `Model::create` and
`Model::create_doc`: insert `updated_at` then `created_at` with the
current time unless each is already present as a valid datetime. -/
def stampTimes (d : Doc) (addTimes : Bool) (now : Int) : Doc :=
  if addTimes then
    let d1 := if !(dContains d "updated_at") ||
        !(isDateTimeVal (dGet d "updated_at")) then
      dInsert d "updated_at" (.vDateTime now)
    else d
    if !(dContains d1 "created_at") ||
        !(isDateTimeVal (dGet d1 "created_at")) then
      dInsert d1 "created_at" (.vDateTime now)
    else d1
  else d

/-- The payload transformation of `Model::create`, applied to the
serialized payload: drop a non-ObjectId `_id`, then stamp timestamps. -/
def createPrep (d : Doc) (addTimes : Bool) (now : Int) : Doc :=
  stampTimes (if isObjectIdVal (dGet d "_id") then d else dRemove d "_id")
    addTimes now

/-- The payload transformation of `Model::create_doc`: only the timestamp
stamping — it has no `_id` check. -/
def create_docPrep (d : Doc) (addTimes : Bool) (now : Int) : Doc :=
  stampTimes d addTimes now

/-! ## Index reconciliation (`Model::register_indexes`)

The scan over the live index listing is modelled as a fold over a state
`(attrs, keys_to_remove)`: the list of desired column names still to
create, and the accumulated drop names (each an `Option String`, exactly
as the code pushes `rw.name.clone()`).  The drop loop's
`name.as_ref().unwrap()` and the `columns.get(key).unwrap()` are modelled
by `Option` (`none` = panic). -/

/-- The fields of the driver's `IndexOptions` that `register_indexes`
reads or writes. -/
structure IndexOptionsM where
  unique : Bool
  name : Option String
  defaultLanguage : Option String
deriving DecidableEq, Repr

/-- The driver's `IndexModel`: key document plus options.  Only key names
are inspected by the scan, values are kept for faithfulness of the built
descriptors. -/
structure IndexModelM where
  keys : List (String × BVal)
  options : Option IndexOptionsM

/-- The declared name of a live index, when its options carry one. -/
def optName (i : IndexModelM) : Option String :=
  i.options.bind IndexOptionsM.name

/-- The body of the per-key loop in `register_indexes`: skip `_id`, erase
a matching desired column, otherwise resolve the orphan via the options
block. -/
def keyStep (o : Option IndexOptionsM)
    (s : List String × List (Option String)) (k : String) :
    List String × List (Option String) :=
  match s with
  | (attrs, rem) =>
    if k = "_id" then (attrs, rem)
    else if k ∈ attrs then (attrs.erase k, rem)
    else
      match o with
      | none => (attrs, rem)
      | some ro =>
        match ro.defaultLanguage with
        | none => (attrs, rem ++ [ro.name])
        | some _ =>
          match ro.name with
          | none => (attrs, rem ++ [none])
          | some nm =>
            if nm ∈ attrs then (attrs.erase nm, rem)
            else (attrs, rem ++ [some nm])

/-- Processing one live index descriptor: the per-key loop over its key
document. -/
def indexStep (s : List String × List (Option String))
    (i : IndexModelM) : List String × List (Option String) :=
  i.keys.foldl (fun s kv => keyStep i.options s kv.1) s

/-- Processing one item of the listing stream: an `Err` item is logged and
skipped. -/
def itemStep (s : List String × List (Option String)) :
    Except Unit IndexModelM → List String × List (Option String)
  | .error _ => s
  | .ok i => indexStep s i

/-- The whole `for_each` over the listing stream. -/
def scanItems (items : List (Except Unit IndexModelM))
    (s : List String × List (Option String)) :
    List String × List (Option String) :=
  items.foldl itemStep s

/-- The scan over a plain list of live descriptors. -/
def scanLive (live : List IndexModelM)
    (s : List String × List (Option String)) :
    List String × List (Option String) :=
  live.foldl indexStep s

/-- The initial desired set: names of columns whose attributes declare an
index. -/
def indexNames (cols : Cols) : List String :=
  (cols.filter (fun c => c.2.is_index)).map Prod.fst

/-- Embeds `HashMap::get` over the column list. -/
def lookupAttr : Cols → String → Option ColumnAttr
  | [], _ => none
  | (k, a) :: rest, n => if k = n then some a else lookupAttr rest n

/-- Building the `IndexModel` for one remaining desired column: text index
(named after the column, carrying the language), 2d-sphere index, or
scalar index with sort order from the attributes; each carries the
uniqueness flag. -/
def buildIndexModel (key : String) (attr : ColumnAttr) : IndexModelM :=
  match attr.text with
  | some lang =>
    ⟨[(key, .vStr "text")], some ⟨attr.unique, some key, some lang⟩⟩
  | none =>
    if attr.sphere2d then
      ⟨[(key, .vStr "2dsphere")], some ⟨attr.unique, none, none⟩⟩
    else
      ⟨[(key, .vInt (if attr.desc then -1 else 1))],
        some ⟨attr.unique, none, none⟩⟩

/-- The `attrs.iter().map(..)` building pass, with the
`columns.get(key).unwrap()` panic modelled as `none`. -/
def buildModels (cols : Cols) : List String → Option (List IndexModelM)
  | [] => some []
  | n :: rest =>
    match lookupAttr cols n with
    | none => none
    | some a => (buildModels cols rest).map (buildIndexModel n a :: ·)

/-- The drop loop's `name.as_ref().unwrap()` over all collected drop
names. -/
def unwrapAll : List (Option String) → Option (List String)
  | [] => some []
  | none :: _ => none
  | some x :: rest => (unwrapAll rest).map (x :: ·)

/-- The database calls one `register_indexes` pass issues: a drop per
name, and one batched create when `creates` is non-empty. -/
structure RegEffects where
  drops : List String
  creates : List IndexModelM

/-- The pure diff of one `register_indexes` pass: on enumeration failure
the scan is skipped and the desired set is left intact (so every desired
index is built); otherwise each ok item is processed in stream order. -/
def scanDiff (cols : Cols)
    (listing : Except Unit (List (Except Unit IndexModelM))) :
    List String × List (Option String) :=
  match listing with
  | .error _ => (indexNames cols, [])
  | .ok items => scanItems items (indexNames cols, [])

/-- One full `register_indexes` pass: scan, unwrap the drop names, and
build the create batch.  `none` models a panic; the function has no error
result — driver failures of the issued calls are logged and ignored. -/
def registerIndexesRun (cols : Cols)
    (listing : Except Unit (List (Except Unit IndexModelM))) :
    Option RegEffects :=
  match unwrapAll (scanDiff cols listing).2 with
  | none => none
  | some drops =>
    match buildModels cols (scanDiff cols listing).1 with
    | none => none
    | some ms => some ⟨drops, ms⟩

/-- The survivor filter after a pass: an index is kept unless its declared
name was scheduled for drop. -/
def keep (drops : List String) (i : IndexModelM) : Bool :=
  match optName i with
  | none => true
  | some n => decide (n ∉ drops)

/-- The names among the collected drop entries. -/
def namesOf (P : List (Option String)) : List String :=
  P.filterMap id

/-- The live index set after a successful pass, with no external changes:
every index whose declared name was dropped disappears, and each created
descriptor is listed with its declared keys and options.  (The server
assigns its own name to a created index, but the second scan never reads
the options of a descriptor whose key matches a desired column, so that
name is irrelevant to the computed diff.) -/
def applyRun (live : List IndexModelM) (eff : RegEffects) :
    List IndexModelM :=
  live.filter (keep eff.drops) ++ eff.creates

/-! ## Theorems -/

theorem dGet_dInsert_self (d : Doc) (k : String) (v : BVal) :
    dGet (dInsert d k v) k = some v := by
  induction d with
  | nil => simp [dInsert, dGet]
  | cons kv rest ih =>
    by_cases h : kv.1 = k
    · simp [dInsert, h, dGet]
    · simp [dInsert, h, dGet, ih]

theorem dGet_dInsert_ne (d : Doc) (k k' : String) (v : BVal) (h : k' ≠ k) :
    dGet (dInsert d k v) k' = dGet d k' := by
  induction d with
  | nil => simp [dInsert, dGet, Ne.symm h]
  | cons kv rest ih =>
    by_cases hk : kv.1 = k
    · subst hk
      simp [dInsert, dGet, Ne.symm h]
    · by_cases hk' : kv.1 = k'
      · simp [dInsert, hk, dGet, hk', h]
      · simp [dInsert, hk, dGet, hk', ih]

theorem dGet_dRemove_ne (d : Doc) (k k' : String) (h : k' ≠ k) :
    dGet (dRemove d k) k' = dGet d k' := by
  induction d with
  | nil => simp [dRemove]
  | cons kv rest ih =>
    by_cases hk : kv.1 = k
    · subst hk
      simp [dRemove, dGet, Ne.symm h]
    · by_cases hk' : kv.1 = k'
      · simp [dRemove, hk, dGet, hk', h]
      · simp [dRemove, hk, dGet, hk', ih]

theorem dGet_dRemove_self (d : Doc) (k : String)
    (h : (d.map Prod.fst).Nodup) : dGet (dRemove d k) k = none := by
  induction d with
  | nil => simp [dRemove, dGet]
  | cons kv rest ih =>
    simp only [List.map_cons, List.nodup_cons] at h
    by_cases hk : kv.1 = k
    · subst hk
      simp only [dRemove, if_pos rfl]
      -- the key does not occur in the tail, so lookup fails there
      clear ih
      induction rest with
      | nil => simp [dGet]
      | cons kv' rest' ih' =>
        simp only [List.map_cons, List.mem_cons, not_or] at h
        have hne : kv'.1 ≠ kv.1 := fun he => h.1.1 he.symm
        simp only [List.nodup_cons] at *
        simp [dGet, hne]
        exact ih' ⟨fun hm => h.1.2 hm, h.2.2⟩
    · simp [dRemove, hk, dGet, ih h.2]

/-- C9: for every column attribute, `is_index()` returns true iff at least
one of unique / ascending / descending / geo-sphere holds or a text
language is present. -/
theorem is_index_iff (a : ColumnAttr) :
    a.is_index = true ↔
      (a.unique = true ∨ a.asc = true ∨ a.desc = true ∨
        a.sphere2d = true ∨ a.text.isSome = true) := by
  simp [ColumnAttr.is_index, Bool.or_eq_true]
  tauto

theorem fst_inj_of_nodup {α β : Type} {l : List (α × β)}
    (h : (l.map Prod.fst).Nodup) {a b : α × β}
    (ha : a ∈ l) (hb : b ∈ l) (he : a.1 = b.1) : a = b := by
  induction l with
  | nil => cases ha
  | cons x rest ih =>
    simp only [List.map_cons, List.nodup_cons] at h
    rcases List.mem_cons.1 ha with ha' | ha' <;>
      rcases List.mem_cons.1 hb with hb' | hb'
    · exact ha'.trans hb'.symm
    · subst ha'
      rw [he] at h
      exact absurd (List.mem_map_of_mem Prod.fst hb') h.1
    · subst hb'
      rw [← he] at h
      exact absurd (List.mem_map_of_mem Prod.fst ha') h.1
    · exact ih h.2 ha' hb'

theorem mem_hidden_fields {cols : Cols} {visible : List String}
    {n : String} :
    n ∈ hidden_fields cols visible ↔
      ∃ c ∈ cols, c.1 = n ∧ c.2.hidden = true ∧ c.1 ∉ visible := by
  simp only [hidden_fields, List.mem_map, List.mem_filter,
    Bool.and_eq_true, decide_eq_true_eq]
  constructor
  · rintro ⟨c, ⟨hc, hh, hv⟩, he⟩
    exact ⟨c, hc, he, hh, hv⟩
  · rintro ⟨c, hc, he, hh, hv⟩
    exact ⟨c, ⟨hc, hh, hv⟩, he⟩

/-- If every column whose identifier is `n` is skipped (hidden), `clear`
leaves the template's value at `n` untouched. -/
theorem clear_untouched (data : Doc) (hid : List String) (n : String) :
    ∀ (l : Cols) (tmpl : Doc),
      (∀ c ∈ l, c.1 = n → c.1 ∈ hid) →
      dGet (clear l tmpl data hid) n = dGet tmpl n := by
  intro l
  induction l with
  | nil => intro tmpl _; rfl
  | cons c rest ih =>
    intro tmpl h
    have hrest : ∀ c' ∈ rest, c'.1 = n → c'.1 ∈ hid := fun c' hc' =>
      h c' (List.mem_cons_of_mem c hc')
    show dGet (clear rest (clearStep data hid tmpl c) data hid) n = _
    rw [ih (clearStep data hid tmpl c) hrest]
    unfold clearStep
    by_cases hmem : c.1 ∈ hid
    · simp [hmem]
    · have hne : c.1 ≠ n := fun he =>
        hmem (h c (List.mem_cons_self c rest) he)
      simp only [if_neg hmem]
      cases dGet data (wireKey c) with
      | none => rfl
      | some v => exact dGet_dInsert_ne _ _ _ _ (Ne.symm hne)

/-- If the column `c` is not skipped and its wire name is present in
`data`, `clear` stores that value under the identifier (and, with distinct
identifiers, nothing later overwrites it). -/
theorem clear_reads {cols : Cols} {tmpl data : Doc} {hid : List String}
    {c : String × ColumnAttr} {v : BVal}
    (hnd : (cols.map Prod.fst).Nodup) (hc : c ∈ cols)
    (hskip : c.1 ∉ hid) (hv : dGet data (wireKey c) = some v) :
    dGet (clear cols tmpl data hid) c.1 = some v := by
  obtain ⟨pre, post, rfl⟩ := List.append_of_mem hc
  have hnd' := hnd
  rw [List.map_append, List.map_cons, List.nodup_append] at hnd'
  have hpost : c.1 ∉ post.map Prod.fst := (List.nodup_cons.1 hnd'.2.1).1
  unfold clear
  rw [List.foldl_append]
  show dGet (List.foldl (clearStep data hid)
    (clearStep data hid (List.foldl (clearStep data hid) tmpl pre) c)
    post) c.1 = some v
  have hstep : dGet (clearStep data hid
      (List.foldl (clearStep data hid) tmpl pre) c) c.1 = some v := by
    unfold clearStep
    rw [if_neg hskip, hv]
    exact dGet_dInsert_self _ _ _
  -- later columns write only to their own (different) identifiers
  have : ∀ (l : Cols) (t : Doc), c.1 ∉ l.map Prod.fst →
      dGet t c.1 = some v →
      dGet (List.foldl (clearStep data hid) t l) c.1 = some v := by
    intro l
    induction l with
    | nil => intro t _ ht; exact ht
    | cons c' rest ih =>
      intro t hmem ht
      simp only [List.map_cons, List.mem_cons, not_or] at hmem
      refine ih _ hmem.2 ?_
      unfold clearStep
      by_cases hmem' : c'.1 ∈ hid
      · simp [hmem', ht]
      · simp only [if_neg hmem']
        cases dGet data (wireKey c') with
        | none => exact ht
        | some w =>
          show dGet (dInsert t c'.1 w) c.1 = some v
          rw [dGet_dInsert_ne _ _ _ _ hmem.1]
          exact ht
  exact this post _ hpost hstep

/-- A non-hidden column, or one explicitly made visible, is never in the
computed hidden-field list (identifiers being distinct). -/
theorem not_mem_hidden_fields {cols : Cols} {visible : List String}
    {c : String × ColumnAttr}
    (hnd : (cols.map Prod.fst).Nodup) (hc : c ∈ cols)
    (h : c.2.hidden = false ∨ c.1 ∈ visible) :
    c.1 ∉ hidden_fields cols visible := by
  intro hmem
  obtain ⟨c', hc', he, hh, hv⟩ := mem_hidden_fields.1 hmem
  have := fst_inj_of_nodup hnd hc' hc he
  subst this
  rcases h with h | h
  · rw [h] at hh; cases hh
  · exact hv h

/-- C3: hidden-field masking through the typed read path.  If the hidden
column is not explicitly visible, `clear` keeps the default template's
value for its identifier regardless of the stored document; if it is in
the explicit-visible list, `clear` copies the stored value found under the
column's wire name. -/
theorem hidden_field_masking (cols : Cols) (tmpl data : Doc)
    (visible : List String) (c : String × ColumnAttr)
    (hnd : (cols.map Prod.fst).Nodup) (hc : c ∈ cols)
    (hh : c.2.hidden = true) :
    (c.1 ∉ visible →
      dGet (clear cols tmpl data (hidden_fields cols visible)) c.1 =
        dGet tmpl c.1) ∧
    (∀ v, c.1 ∈ visible → dGet data (wireKey c) = some v →
      dGet (clear cols tmpl data (hidden_fields cols visible)) c.1 =
        some v) := by
  constructor
  · intro hv
    refine clear_untouched data _ c.1 cols tmpl ?_
    intro c' hc' he
    have : c' = c := fst_inj_of_nodup hnd hc' hc (by rw [he])
    subst this
    rw [he]
    exact mem_hidden_fields.2 ⟨c', hc', he, hh, he ▸ hv⟩
  · intro v hvis hval
    exact clear_reads hnd hc
      (not_mem_hidden_fields hnd hc (Or.inr hvis)) hval

/-- Witness for C3 at a concrete schema: a hidden `password` column stored
under wire name `pswd`. -/
theorem hidden_field_masking_witness :
    dGet (clear [("password", ⟨false, false, false, false, none, true,
        some "pswd"⟩)] [("password", BVal.vStr "")]
      [("pswd", BVal.vStr "secret")]
      (hidden_fields [("password", ⟨false, false, false, false, none,
        true, some "pswd"⟩)] [])) "password" = some (BVal.vStr "") ∧
    dGet (clear [("password", ⟨false, false, false, false, none, true,
        some "pswd"⟩)] [("password", BVal.vStr "")]
      [("pswd", BVal.vStr "secret")]
      (hidden_fields [("password", ⟨false, false, false, false, none,
        true, some "pswd"⟩)] ["password"])) "password" =
      some (BVal.vStr "secret") := by
  constructor
  · have := (hidden_field_masking
      [("password", ⟨false, false, false, false, none, true, some "pswd"⟩)]
      [("password", BVal.vStr "")] [("pswd", BVal.vStr "secret")] []
      ("password", ⟨false, false, false, false, none, true, some "pswd"⟩)
      (by simp) (List.mem_singleton.2 rfl) rfl).1 (by simp)
    rw [this]
    rfl
  · exact (hidden_field_masking
      [("password", ⟨false, false, false, false, none, true, some "pswd"⟩)]
      [("password", BVal.vStr "")] [("pswd", BVal.vStr "secret")]
      ["password"]
      ("password", ⟨false, false, false, false, none, true, some "pswd"⟩)
      (by simp) (List.mem_singleton.2 rfl) rfl).2 (BVal.vStr "secret")
      (List.mem_singleton.2 rfl) rfl

/-- Columns that neither rename onto `k` nor are identified by `k` leave
the value stored under `k` untouched by the renaming pass. -/
theorem rename_plain_untouched (k : String) :
    ∀ (l : Cols) (d : Doc),
      (∀ c ∈ l, ∀ a, c.2.name = some a → a ≠ k) →
      (∀ c ∈ l, c.1 ≠ k) →
      dGet (rename_field_plain l d) k = dGet d k := by
  intro l
  induction l with
  | nil => intro d _ _; rfl
  | cons c rest ih =>
    intro d h1 h2
    show dGet (rename_field_plain rest (renameStepPlain d c)) k = _
    rw [ih (renameStepPlain d c)
      (fun c' hc' => h1 c' (List.mem_cons_of_mem c hc'))
      (fun c' hc' => h2 c' (List.mem_cons_of_mem c hc'))]
    unfold renameStepPlain
    cases hn : c.2.name with
    | none => rfl
    | some a =>
      cases dGet d c.1 with
      | none => rfl
      | some b =>
        show dGet (dRemove (dInsert d a b) c.1) k = dGet d k
        rw [dGet_dRemove_ne _ _ _
          (fun he => h2 c (List.mem_cons_self c rest) he.symm)]
        exact dGet_dInsert_ne _ _ _ _
          (fun he => h1 c (List.mem_cons_self c rest) a hn he.symm)

/-- C4: renaming round-trip.  For a well-formed schema (distinct
identifiers; wire-name overrides distinct from each other and from every
identifier), writing through `inner_to_doc` (value relocated from the
identifier key to the wire name) and reading back through `clear`
reconstructs the original identifier-keyed value of every non-hidden
column with a declared wire-name override. -/
theorem rename_round_trip (cols : Cols) (tmpl serialized : Doc)
    (visible : List String) (c : String × ColumnAttr) (r : String)
    (v : BVal)
    (hnd : (cols.map Prod.fst).Nodup)
    (hrt : (renTargets cols).Nodup)
    (hdisj : ∀ t ∈ renTargets cols, t ∉ cols.map Prod.fst)
    (hc : c ∈ cols) (hr : c.2.name = some r) (hh : c.2.hidden = false)
    (hv : dGet serialized c.1 = some v) :
    dGet (clear cols tmpl (inner_to_doc cols serialized)
      (hidden_fields cols visible)) c.1 = some v := by
  have hrmem : r ∈ renTargets cols := by
    simp only [renTargets, List.mem_filterMap]
    exact ⟨c, hc, hr⟩
  have hrid : r ∉ cols.map Prod.fst := hdisj r hrmem
  have hrc : r ≠ c.1 := fun he => hrid (he ▸ List.mem_map_of_mem Prod.fst hc)
  -- the renaming pass stores the value under the wire name r
  have hren : dGet (inner_to_doc cols serialized) r = some v := by
    obtain ⟨pre, post, rfl⟩ := List.append_of_mem hc
    have hndf := hnd
    rw [List.map_append, List.map_cons, List.nodup_append] at hndf
    have hrtsplit : renTargets (pre ++ c :: post) =
        renTargets pre ++ r :: renTargets post := by
      simp [renTargets, List.filterMap_append, List.filterMap_cons, hr]
    rw [hrtsplit] at hrt
    rw [List.nodup_append] at hrt
    have hrpre : r ∉ renTargets pre := fun hm =>
      hrt.2.2 hm (List.mem_cons_self r _)
    have hrpost : r ∉ renTargets post := (List.nodup_cons.1 hrt.2.1).1
    unfold inner_to_doc rename_field_plain
    rw [List.foldl_append]
    show dGet (List.foldl renameStepPlain
      (renameStepPlain (List.foldl renameStepPlain serialized pre) c)
      post) r = some v
    -- the prefix does not touch the identifier key of c
    have hpre : dGet (List.foldl renameStepPlain serialized pre) c.1 =
        some v := by
      rw [show List.foldl renameStepPlain serialized pre =
        rename_field_plain pre serialized from rfl]
      rw [rename_plain_untouched c.1 pre serialized ?_ ?_]
      · exact hv
      · intro c' hc' a ha he
        refine hdisj a ?_ ?_
        · simp only [renTargets, List.mem_filterMap]
          exact ⟨c', List.mem_append_left _ hc', ha⟩
        · rw [he, List.map_append]
          exact List.mem_append_right _ (List.mem_cons_self _ _)
      · intro c' hc' he
        exact hndf.2.2 (he ▸ List.mem_map_of_mem Prod.fst hc')
          (List.mem_cons_self _ _)
    -- the step of c itself moves the value under r
    have hcstep : dGet (renameStepPlain
        (List.foldl renameStepPlain serialized pre) c) r = some v := by
      simp only [renameStepPlain, hr, hpre]
      rw [dGet_dRemove_ne _ _ _ hrc]
      exact dGet_dInsert_self _ _ _
    -- the suffix does not touch the wire name r
    rw [show List.foldl renameStepPlain
      (renameStepPlain (List.foldl renameStepPlain serialized pre) c) post =
      rename_field_plain post
        (renameStepPlain (List.foldl renameStepPlain serialized pre) c)
      from rfl]
    rw [rename_plain_untouched r post _ ?_ ?_]
    · exact hcstep
    · intro c' hc' a ha he
      apply hrpost
      rw [← he]
      simp only [renTargets, List.mem_filterMap]
      exact ⟨c', hc', ha⟩
    · intro c' hc' he
      apply hrid
      rw [← he, List.map_append, List.map_cons]
      exact List.mem_append_right _
        (List.mem_cons_of_mem _ (List.mem_map_of_mem Prod.fst hc'))
  -- the read path copies it back onto the identifier key
  have hwk : wireKey c = r := by simp [wireKey, hr]
  exact clear_reads hnd hc
    (not_mem_hidden_fields hnd hc (Or.inl hh)) (hwk ▸ hren)

/-- Witness for C4 at a concrete schema: column `password` renamed on the
wire to `pswd`, value reconstructed after the write/read round-trip. -/
theorem rename_round_trip_witness :
    dGet (clear [("password", ⟨false, false, false, false, none, false,
        some "pswd"⟩)] [("password", BVal.vStr "")]
      (inner_to_doc [("password", ⟨false, false, false, false, none,
        false, some "pswd"⟩)] [("password", BVal.vStr "secret")])
      (hidden_fields [("password", ⟨false, false, false, false, none,
        false, some "pswd"⟩)] [])) "password" = some (BVal.vStr "secret") :=
  rename_round_trip
    [("password", ⟨false, false, false, false, none, false, some "pswd"⟩)]
    [("password", BVal.vStr "")] [("password", BVal.vStr "secret")] []
    ("password", ⟨false, false, false, false, none, false, some "pswd"⟩)
    "pswd" (BVal.vStr "secret") (by simp) (by simp [renTargets])
    (by simp [renTargets]) (List.mem_singleton.2 rfl) rfl rfl rfl

/-- C1 (amended): with an empty filter list, `delete` always returns the
invalid-input failure, and `update` does so for every payload whose
preparation does not panic; in no case is a database call dispatched, so
the database state is unchanged. -/
theorem update_delete_empty_filter (cols : Cols) (addTimes : Bool)
    (qb : QueryBuilder) (d : Doc) (now : Int) (h : qb.whr = []) :
    (∀ disp, updateRun cols addTimes qb d now ≠ some (.ok disp)) ∧
    (∀ payload, updatePrep cols addTimes qb.upsert d now = some payload →
      updateRun cols addTimes qb d now = some (.error .invalidInput)) ∧
    deleteRun qb = .error .invalidInput := by
  refine ⟨?_, ?_, ?_⟩
  · intro disp hdisp
    unfold updateRun at hdisp
    cases hp : updatePrep cols addTimes qb.upsert d now with
    | none => rw [hp] at hdisp; cases hdisp
    | some payload =>
      rw [hp] at hdisp
      simp only [h, List.isEmpty_nil, if_true] at hdisp
      cases hdisp
  · intro payload hp
    unfold updateRun
    rw [hp]
    simp [h]
  · unfold deleteRun
    simp [h]

/-- Witness for (amended) C1 at a concrete state. -/
theorem update_delete_empty_filter_witness :
    updateRun [] true QueryBuilder.init [("age", BVal.vInt 25)] 0 =
      some (.error .invalidInput) ∧
    deleteRun QueryBuilder.init = .error .invalidInput := by
  have h := update_delete_empty_filter [] true QueryBuilder.init
    [("age", BVal.vInt 25)] 0 rfl
  exact ⟨h.2.1 [("$set", BVal.vDoc
    [("age", BVal.vInt 25), ("updated_at", BVal.vDateTime 0)])] rfl, h.2.2⟩

/-- Counterexample to C1 as stated: with a column carrying a wire-name
override and a mixed operator payload whose second top-level value is not
a sub-document, `update` with an empty filter list panics inside
`rename_field` (modelled as `none`) instead of returning the invalid-input
failure. -/
theorem update_empty_filter_abort_cex :
    updateRun
      [("age", ⟨false, false, false, false, none, false, some "age2"⟩)]
      true QueryBuilder.init
      [("$set", BVal.vDoc [("x", BVal.vInt 1)]), ("age", BVal.vInt 5)] 0 =
      none := rfl

/-- C5: for a payload with no operator-sigil top-level key, `update` wraps
the renamed payload under `"$set"`; with timestamping enabled it inserts
`updated_at` into the `"$set"` sub-document, and it adds a
`"$setOnInsert"` sub-document carrying `created_at` iff the upsert flag is
active. -/
theorem update_set_wrapping (cols : Cols) (addTimes upsert : Bool)
    (d : Doc) (now : Int) (h : ∀ kv ∈ d, opSigil kv.1 = false) :
    updatePrep cols addTimes upsert d now = some (
      if addTimes then
        if upsert then
          [("$set", .vDoc (dInsert (rename_field_plain cols d)
              "updated_at" (.vDateTime now))),
           ("$setOnInsert", .vDoc [("created_at", .vDateTime now)])]
        else
          [("$set", .vDoc (dInsert (rename_field_plain cols d)
              "updated_at" (.vDateTime now)))]
      else [("$set", .vDoc (rename_field_plain cols d))]) := by
  have hop : docHasOpKey d = false := by
    simp only [docHasOpKey, List.any_eq_false]
    intro kv hkv
    simp [h kv hkv]
  cases addTimes <;> cases upsert <;>
    simp [updatePrep, hop, rename_field, setStamp, setOnInsertStamp,
      dContains, dGet, dInsert]

/-- Witness for C5 at the spec's example payload `{age: 25}` with a
renamed column and timestamping enabled. -/
theorem update_set_wrapping_witness :
    updatePrep
      [("age", ⟨false, false, false, false, none, false, some "age2"⟩)]
      true false [("age", BVal.vInt 25)] 0 =
      some [("$set", BVal.vDoc
        [("age2", BVal.vInt 25), ("updated_at", BVal.vDateTime 0)])] := by
  have h := update_set_wrapping
    [("age", ⟨false, false, false, false, none, false, some "age2"⟩)]
    true false [("age", BVal.vInt 25)] 0
    (by
      rintro kv hkv
      rcases List.mem_singleton.1 hkv with rfl
      rfl)
  rw [h]
  rfl

theorem renameInnerOne_none (ident target : String) :
    ∀ d : Doc, (∃ kv ∈ d, kv.2.isDocVal = false) →
      renameInnerOne ident target d = none := by
  intro d
  induction d with
  | nil => rintro ⟨kv, hkv, _⟩; cases hkv
  | cons kv rest ih =>
    rintro ⟨kv', hkv', hval⟩
    rcases List.mem_cons.1 hkv' with rfl | hmem
    · cases hv : kv'.2 with
      | vDoc i => rw [hv] at hval; cases hval
      | vNull => rw [show kv' = (kv'.1, kv'.2) from rfl, hv]; rfl
      | vBool b => rw [show kv' = (kv'.1, kv'.2) from rfl, hv]; rfl
      | vInt n => rw [show kv' = (kv'.1, kv'.2) from rfl, hv]; rfl
      | vStr s => rw [show kv' = (kv'.1, kv'.2) from rfl, hv]; rfl
      | vObjectId s => rw [show kv' = (kv'.1, kv'.2) from rfl, hv]; rfl
      | vDateTime t => rw [show kv' = (kv'.1, kv'.2) from rfl, hv]; rfl
      | vArr l => rw [show kv' = (kv'.1, kv'.2) from rfl, hv]; rfl
    · have hrest := ih ⟨kv', hmem, hval⟩
      cases hv : kv.2 with
      | vDoc i =>
        rw [show kv = (kv.1, kv.2) from rfl, hv]
        show (renameInnerOne ident target rest).map _ = none
        rw [hrest]
        rfl
      | vNull => rw [show kv = (kv.1, kv.2) from rfl, hv]; rfl
      | vBool b => rw [show kv = (kv.1, kv.2) from rfl, hv]; rfl
      | vInt n => rw [show kv = (kv.1, kv.2) from rfl, hv]; rfl
      | vStr s => rw [show kv = (kv.1, kv.2) from rfl, hv]; rfl
      | vObjectId s => rw [show kv = (kv.1, kv.2) from rfl, hv]; rfl
      | vDateTime t => rw [show kv = (kv.1, kv.2) from rfl, hv]; rfl
      | vArr l => rw [show kv = (kv.1, kv.2) from rfl, hv]; rfl

theorem rename_field_op_none {cols : Cols} {d : Doc}
    (hd : ∃ kv ∈ d, kv.2.isDocVal = false)
    (hc : ∃ c ∈ cols, c.2.name.isSome = true) :
    rename_field_op cols d = none := by
  induction cols with
  | nil =>
    obtain ⟨c, hcmem, _⟩ := hc
    cases hcmem
  | cons c rest ih =>
    obtain ⟨c', hcmem, hcs⟩ := hc
    unfold rename_field_op
    rw [List.foldlM_cons]
    cases hn : c.2.name with
    | some a =>
      show (renameInnerOne c.1 a d).bind _ = none
      rw [renameInnerOne_none c.1 a d hd]
      rfl
    | none =>
      show (some d).bind (fun d => List.foldlM _ d rest) = none
      rcases List.mem_cons.1 hcmem with rfl | hmem
      · rw [hn] at hcs; cases hcs
      · exact ih ⟨c', hmem, hcs⟩

/-- C10: for a mixed operator-form payload (some top-level key carries the
operator sigil but some top-level value is not a sub-document) and a
schema with at least one wire-name override, `rename_field` in operator
mode hits the unconditional document unwrap — a panic, modelled as `none`
— so `update` aborts rather than returning any error result. -/
theorem rename_field_mixed_payload_aborts (cols : Cols) (addTimes : Bool)
    (qb : QueryBuilder) (d : Doc) (now : Int)
    (h1 : docHasOpKey d = true)
    (h2 : ∃ kv ∈ d, kv.2.isDocVal = false)
    (h3 : ∃ c ∈ cols, c.2.name.isSome = true) :
    rename_field cols d true = none ∧
    updateRun cols addTimes qb d now = none := by
  have hop : rename_field cols d true = none := by
    unfold rename_field
    rw [if_pos rfl]
    exact rename_field_op_none h2 h3
  refine ⟨hop, ?_⟩
  unfold updateRun updatePrep
  simp [h1, hop]

/-- Witness for C10 at a concrete mixed payload. -/
theorem rename_field_mixed_payload_aborts_witness :
    updateRun
      [("age", ⟨false, false, false, false, none, false, some "age2"⟩)]
      true { QueryBuilder.init with whr := [[("x", BVal.vInt 1)]] }
      [("$set", BVal.vDoc [("x", BVal.vInt 1)]), ("age", BVal.vInt 5)] 0 =
      none :=
  (rename_field_mixed_payload_aborts
    [("age", ⟨false, false, false, false, none, false, some "age2"⟩)]
    true { QueryBuilder.init with whr := [[("x", BVal.vInt 1)]] }
    [("$set", BVal.vDoc [("x", BVal.vInt 1)]), ("age", BVal.vInt 5)] 0
    rfl
    ⟨("age", BVal.vInt 5), by simp, rfl⟩
    ⟨("age", ⟨false, false, false, false, none, false, some "age2"⟩),
      by simp, rfl⟩).2

/-- The stamping condition `!contains || !valid` is equivalent to the
value under the key not being a valid datetime. -/
theorem stamp_cond (dd : Doc) (key : String) :
    (!(dContains dd key) || !(isDateTimeVal (dGet dd key))) =
      !(isDateTimeVal (dGet dd key)) := by
  cases hg : dGet dd key with
  | none => simp [dContains, hg, isDateTimeVal]
  | some v => simp [dContains, hg]

theorem isSome_of_dt {o : Option BVal} (h : isDateTimeVal o = true) :
    o.isSome = true := by
  cases o with
  | none => cases h
  | some v => rfl

theorem dContains_true_of_dt {d : Doc} {k : String}
    (h : isDateTimeVal (dGet d k) = true) : dContains d k = true :=
  isSome_of_dt h

/-- Field-level description of `stampTimes` with timestamping on. -/
theorem stampTimes_spec (d : Doc) (now : Int) :
    dGet (stampTimes d true now) "updated_at" =
      (if isDateTimeVal (dGet d "updated_at") then dGet d "updated_at"
        else some (.vDateTime now)) ∧
    dGet (stampTimes d true now) "created_at" =
      (if isDateTimeVal (dGet d "created_at") then dGet d "created_at"
        else some (.vDateTime now)) ∧
    dGet (stampTimes d true now) "_id" = dGet d "_id" := by
  by_cases hu : isDateTimeVal (dGet d "updated_at") = true <;>
    by_cases hcr : isDateTimeVal (dGet d "created_at") = true
  · have e : stampTimes d true now = d := by
      unfold stampTimes
      simp [hu, hcr, dContains_true_of_dt hu, dContains_true_of_dt hcr]
    rw [e, if_pos hu, if_pos hcr]
    exact ⟨rfl, rfl, rfl⟩
  · rw [Bool.not_eq_true] at hcr
    have e : stampTimes d true now =
        dInsert d "created_at" (.vDateTime now) := by
      unfold stampTimes
      simp [hu, hcr, dContains_true_of_dt hu]
    rw [e, if_pos hu, hcr]
    refine ⟨dGet_dInsert_ne _ _ _ _ (by decide), ?_,
      dGet_dInsert_ne _ _ _ _ (by decide)⟩
    simp [dGet_dInsert_self]
  · rw [Bool.not_eq_true] at hu
    have hin : dGet (dInsert d "updated_at" (.vDateTime now))
        "created_at" = dGet d "created_at" :=
      dGet_dInsert_ne _ _ _ _ (by decide)
    have hco : dContains (dInsert d "updated_at" (.vDateTime now))
        "created_at" = true := by
      unfold dContains
      rw [hin]
      exact isSome_of_dt hcr
    have e : stampTimes d true now =
        dInsert d "updated_at" (.vDateTime now) := by
      unfold stampTimes
      simp [hu, hin, hcr, hco]
    rw [e, hu, if_pos hcr]
    refine ⟨?_, hin, dGet_dInsert_ne _ _ _ _ (by decide)⟩
    simp [dGet_dInsert_self]
  · rw [Bool.not_eq_true] at hu
    rw [Bool.not_eq_true] at hcr
    have hin : dGet (dInsert d "updated_at" (.vDateTime now))
        "created_at" = dGet d "created_at" :=
      dGet_dInsert_ne _ _ _ _ (by decide)
    have e : stampTimes d true now =
        dInsert (dInsert d "updated_at" (.vDateTime now)) "created_at"
          (.vDateTime now) := by
      unfold stampTimes
      simp [hu, hin, hcr]
    rw [e, hu, hcr]
    refine ⟨?_, ?_, ?_⟩
    · rw [dGet_dInsert_ne _ _ _ _ (by decide)]
      simp [dGet_dInsert_self]
    · simp [dGet_dInsert_self]
    · rw [dGet_dInsert_ne _ _ _ _ (by decide),
        dGet_dInsert_ne _ _ _ _ (by decide)]

/-- C7 (amended): `create` drops a non-ObjectId `_id` from the serialized
payload and, with timestamping on, stamps `updated_at`/`created_at` with
the current time unless each is already a valid datetime; `create_doc`
applies the same timestamp contract but performs no `_id` removal. -/
theorem create_prep_contract (d : Doc) (addTimes : Bool) (now : Int)
    (hnd : (d.map Prod.fst).Nodup) :
    (dGet (createPrep d addTimes now) "_id" =
      if isObjectIdVal (dGet d "_id") then dGet d "_id" else none) ∧
    (dGet (create_docPrep d addTimes now) "_id" = dGet d "_id") ∧
    (addTimes = true →
      dGet (createPrep d addTimes now) "updated_at" =
        (if isDateTimeVal (dGet d "updated_at") then dGet d "updated_at"
          else some (.vDateTime now)) ∧
      dGet (createPrep d addTimes now) "created_at" =
        (if isDateTimeVal (dGet d "created_at") then dGet d "created_at"
          else some (.vDateTime now)) ∧
      dGet (create_docPrep d addTimes now) "updated_at" =
        (if isDateTimeVal (dGet d "updated_at") then dGet d "updated_at"
          else some (.vDateTime now)) ∧
      dGet (create_docPrep d addTimes now) "created_at" =
        (if isDateTimeVal (dGet d "created_at") then dGet d "created_at"
          else some (.vDateTime now))) := by
  have hid : ∀ key : String, key ≠ "_id" →
      dGet (if isObjectIdVal (dGet d "_id") then d else dRemove d "_id")
        key = dGet d key := by
    intro key hk
    by_cases h : isObjectIdVal (dGet d "_id") = true
    · rw [if_pos h]
    · rw [if_neg h, dGet_dRemove_ne _ _ _ hk]
  refine ⟨?_, ?_, ?_⟩
  · unfold createPrep
    cases addTimes with
    | false =>
      show dGet (stampTimes _ false now) "_id" = _
      unfold stampTimes
      rw [if_neg (by decide)]
      by_cases h : isObjectIdVal (dGet d "_id") = true
      · rw [if_pos h, if_pos h]
      · rw [if_neg h, if_neg h]
        exact dGet_dRemove_self d "_id" hnd
    | true =>
      rw [(stampTimes_spec _ now).2.2]
      by_cases h : isObjectIdVal (dGet d "_id") = true
      · rw [if_pos h, if_pos h]
      · rw [if_neg h, if_neg h]
        exact dGet_dRemove_self d "_id" hnd
  · unfold create_docPrep
    cases addTimes with
    | false => rfl
    | true => exact (stampTimes_spec d now).2.2
  · intro hT
    subst hT
    have h1 := stampTimes_spec
      (if isObjectIdVal (dGet d "_id") then d else dRemove d "_id") now
    have h2 := stampTimes_spec d now
    refine ⟨?_, ?_, h2.1, h2.2.1⟩
    · unfold createPrep
      rw [h1.1, hid "updated_at" (by decide)]
    · unfold createPrep
      rw [h1.2.1, hid "created_at" (by decide)]

/-- Witness for (amended) C7 at a concrete payload carrying a valid
ObjectId. -/
theorem create_prep_contract_witness :
    dGet (createPrep [("_id", BVal.vObjectId "64b")] true 7) "_id" =
      some (BVal.vObjectId "64b") ∧
    dGet (createPrep [("_id", BVal.vObjectId "64b")] true 7)
      "updated_at" = some (BVal.vDateTime 7) := by
  have h := create_prep_contract [("_id", BVal.vObjectId "64b")] true 7
    (by simp)
  constructor
  · rw [h.1]; rfl
  · rw [(h.2.2 rfl).1]; rfl

/-- Counterexample to C7 as stated: `create_doc` keeps a non-ObjectId
`_id` that `create` would remove. -/
theorem create_doc_keeps_invalid_id_cex :
    dGet (create_docPrep [("_id", BVal.vStr "oops")] true 0) "_id" =
      some (BVal.vStr "oops") ∧
    dGet (createPrep [("_id", BVal.vStr "oops")] true 0) "_id" = none := by
  constructor <;> rfl

/-- C6 (amended): an orphan key whose descriptor carries an options block
is either matched to a desired column (language marker present, declared
name equal to a desired column, which is then removed instead of being
dropped) or its declared name is appended to the drop schedule. -/
theorem orphan_resolution_with_options (ro : IndexOptionsM)
    (A : List String) (R : List (Option String)) (k : String)
    (hid : k ≠ "_id") (horph : k ∉ A) :
    (∃ nm, ro.defaultLanguage.isSome = true ∧ ro.name = some nm ∧
      nm ∈ A ∧ keyStep (some ro) (A, R) k = (A.erase nm, R)) ∨
    keyStep (some ro) (A, R) k = (A, R ++ [ro.name]) := by
  obtain ⟨uq, nmo, dl⟩ := ro
  cases dl with
  | none =>
    refine Or.inr ?_
    show (if k = "_id" then (A, R) else if k ∈ A then (A.erase k, R)
      else (A, R ++ [nmo])) = (A, R ++ [nmo])
    rw [if_neg hid, if_neg horph]
  | some lang =>
    cases nmo with
    | none =>
      refine Or.inr ?_
      show (if k = "_id" then (A, R) else if k ∈ A then (A.erase k, R)
        else (A, R ++ [none])) = (A, R ++ [none])
      rw [if_neg hid, if_neg horph]
    | some nm =>
      by_cases hm : nm ∈ A
      · refine Or.inl ⟨nm, rfl, rfl, hm, ?_⟩
        show (if k = "_id" then (A, R) else if k ∈ A then (A.erase k, R)
          else if nm ∈ A then (A.erase nm, R) else (A, R ++ [some nm])) =
          (A.erase nm, R)
        rw [if_neg hid, if_neg horph, if_pos hm]
      · refine Or.inr ?_
        show (if k = "_id" then (A, R) else if k ∈ A then (A.erase k, R)
          else if nm ∈ A then (A.erase nm, R) else (A, R ++ [some nm])) =
          (A, R ++ [some nm])
        rw [if_neg hid, if_neg horph, if_neg hm]

/-- Witness for (amended) C6: a live scalar index on an undeclared field
`b` is scheduled for drop under its declared name. -/
theorem orphan_resolution_with_options_witness :
    keyStep (some ⟨false, some "b_1", none⟩) (["a"], []) "b" =
      (["a"], [some "b_1"]) := by
  rcases orphan_resolution_with_options ⟨false, some "b_1", none⟩
    ["a"] [] "b" (by decide) (by decide) with ⟨nm, hl, _⟩ | h
  · cases hl
  · exact h

/-- Counterexample to C6 as stated: an orphan key on a descriptor with no
options block is neither matched to a desired column nor scheduled for
drop — the scan state is completely unchanged. -/
theorem orphan_no_options_ignored_cex :
    keyStep none (["a"], []) "b" = (["a"], []) := rfl

theorem lookupAttr_isSome {cols : Cols} {n : String}
    (hn : n ∈ cols.map Prod.fst) : ∃ a, lookupAttr cols n = some a := by
  induction cols with
  | nil => cases hn
  | cons c rest ih =>
    rw [List.map_cons, List.mem_cons] at hn
    by_cases he : c.1 = n
    · refine ⟨c.2, ?_⟩
      show (if c.1 = n then some c.2 else lookupAttr rest n) = _
      rw [if_pos he]
    · rcases hn with he' | hm
      · exact absurd he'.symm he
      · obtain ⟨a, ha⟩ := ih hm
        refine ⟨a, ?_⟩
        show (if c.1 = n then some c.2 else lookupAttr rest n) = _
        rw [if_neg he, ha]

theorem buildModels_isSome {cols : Cols} :
    ∀ {ns : List String}, (∀ n ∈ ns, n ∈ cols.map Prod.fst) →
      ∃ ms, buildModels cols ns = some ms := by
  intro ns
  induction ns with
  | nil => exact fun _ => ⟨[], rfl⟩
  | cons n rest ih =>
    intro h
    obtain ⟨a, ha⟩ := lookupAttr_isSome (h n (List.mem_cons_self n rest))
    obtain ⟨ms, hms⟩ := ih (fun n' hn' => h n' (List.mem_cons_of_mem n hn'))
    refine ⟨buildIndexModel n a :: ms, ?_⟩
    unfold buildModels
    rw [ha, hms]
    rfl

theorem unwrapAll_isSome :
    ∀ {P : List (Option String)}, (∀ x ∈ P, x.isSome = true) →
      ∃ l, unwrapAll P = some l := by
  intro P
  induction P with
  | nil => exact fun _ => ⟨[], rfl⟩
  | cons x rest ih =>
    intro h
    cases x with
    | none => cases h none (List.mem_cons_self _ _)
    | some y =>
      obtain ⟨l, hl⟩ := ih (fun x' hx' => h x' (List.mem_cons_of_mem _ hx'))
      refine ⟨y :: l, ?_⟩
      unfold unwrapAll
      rw [hl]
      rfl

theorem keyStep_fst_sublist (o : Option IndexOptionsM) (k : String)
    (A : List String) (R : List (Option String)) :
    (keyStep o (A, R) k).1.Sublist A := by
  cases o with
  | none =>
    show (if k = "_id" then (A, R) else if k ∈ A then (A.erase k, R)
      else (A, R)).1.Sublist A
    by_cases h1 : k = "_id"
    · rw [if_pos h1]
    · rw [if_neg h1]
      by_cases h2 : k ∈ A
      · rw [if_pos h2]
        exact List.erase_sublist _ _
      · rw [if_neg h2]
  | some ro =>
    obtain ⟨uq, nmo, dl⟩ := ro
    cases dl with
    | none =>
      show (if k = "_id" then (A, R) else if k ∈ A then (A.erase k, R)
        else (A, R ++ [nmo])).1.Sublist A
      by_cases h1 : k = "_id"
      · rw [if_pos h1]
      · rw [if_neg h1]
        by_cases h2 : k ∈ A
        · rw [if_pos h2]
          exact List.erase_sublist _ _
        · rw [if_neg h2]
    | some lang =>
      cases nmo with
      | none =>
        show (if k = "_id" then (A, R) else if k ∈ A then (A.erase k, R)
          else (A, R ++ [none])).1.Sublist A
        by_cases h1 : k = "_id"
        · rw [if_pos h1]
        · rw [if_neg h1]
          by_cases h2 : k ∈ A
          · rw [if_pos h2]
            exact List.erase_sublist _ _
          · rw [if_neg h2]
      | some nm =>
        show (if k = "_id" then (A, R) else if k ∈ A then (A.erase k, R)
          else if nm ∈ A then (A.erase nm, R)
          else (A, R ++ [some nm])).1.Sublist A
        by_cases h1 : k = "_id"
        · rw [if_pos h1]
        · rw [if_neg h1]
          by_cases h2 : k ∈ A
          · rw [if_pos h2]
            exact List.erase_sublist _ _
          · rw [if_neg h2]
            by_cases h3 : nm ∈ A
            · rw [if_pos h3]
              exact List.erase_sublist _ _
            · rw [if_neg h3]

theorem keysFold_fst_sublist (o : Option IndexOptionsM) :
    ∀ (ks : List (String × BVal)) (s : List String × List (Option String)),
      (ks.foldl (fun s kv => keyStep o s kv.1) s).1.Sublist s.1 := by
  intro ks
  induction ks with
  | nil => exact fun s => List.Sublist.refl _
  | cons kv rest ih =>
    intro s
    refine (ih (keyStep o s kv.1)).trans ?_
    obtain ⟨A, R⟩ := s
    exact keyStep_fst_sublist o kv.1 A R

theorem indexStep_fst_sublist (i : IndexModelM)
    (s : List String × List (Option String)) :
    (indexStep s i).1.Sublist s.1 :=
  keysFold_fst_sublist i.options i.keys s

theorem scanItems_fst_sublist :
    ∀ (items : List (Except Unit IndexModelM))
      (s : List String × List (Option String)),
      (scanItems items s).1.Sublist s.1 := by
  intro items
  induction items with
  | nil => exact fun s => List.Sublist.refl _
  | cons it rest ih =>
    intro s
    refine (ih (itemStep s it)).trans ?_
    cases it with
    | error u => exact List.Sublist.refl _
    | ok i => exact indexStep_fst_sublist i s

theorem indexNames_sub {cols : Cols} :
    ∀ n ∈ indexNames cols, n ∈ cols.map Prod.fst := by
  intro n hn
  unfold indexNames at hn
  obtain ⟨c, hc, he⟩ := List.mem_map.1 hn
  exact he ▸ List.mem_map_of_mem Prod.fst (List.mem_of_mem_filter hc)

/-- C8 (amended): `register_indexes` has no error result.  Provided every
collected drop name is present (no unnamed orphan), the pass completes for
every listing outcome — including enumeration failure, in which case it
schedules no drops and attempts creation of every desired index — and for
every outcome of the issued drop/create calls (those results are ignored
or logged by the code, which the effects model reflects by carrying no
result channel). -/
theorem register_indexes_nonfatal (cols : Cols)
    (listing : Except Unit (List (Except Unit IndexModelM)))
    (hnames : ∀ x ∈ (scanDiff cols listing).2, x.isSome = true) :
    (∃ eff, registerIndexesRun cols listing = some eff) ∧
    (∀ u, listing = .error u →
      ∃ ms, buildModels cols (indexNames cols) = some ms ∧
        registerIndexesRun cols listing = some ⟨[], ms⟩) := by
  have hdiff_sub : (scanDiff cols listing).1.Sublist (indexNames cols) := by
    unfold scanDiff
    cases listing with
    | error u => exact List.Sublist.refl _
    | ok items => exact scanItems_fst_sublist items _
  obtain ⟨drops, hdrops⟩ := unwrapAll_isSome hnames
  obtain ⟨ms, hms⟩ := @buildModels_isSome cols (scanDiff cols listing).1
    (fun n hn => indexNames_sub n (hdiff_sub.subset hn))
  constructor
  · refine ⟨⟨drops, ms⟩, ?_⟩
    unfold registerIndexesRun
    rw [hdrops, hms]
  · intro u hu
    subst hu
    obtain ⟨ms', hms'⟩ := @buildModels_isSome cols (indexNames cols)
      indexNames_sub
    refine ⟨ms', hms', ?_⟩
    unfold registerIndexesRun
    have h2 : (scanDiff cols (Except.error u)).2 = [] := rfl
    have h1 : (scanDiff cols (Except.error u)).1 = indexNames cols := rfl
    rw [h2, h1, hms']
    rfl

/-- Witness for (amended) C8: a listing-error pass completes with no drops
and a create attempt for the one desired column. -/
theorem register_indexes_nonfatal_witness :
    registerIndexesRun
      [("a", ⟨true, false, false, false, none, false, none⟩)]
      (.error ()) =
      some ⟨[], [⟨[("a", BVal.vInt 1)],
        some ⟨false, none, none⟩⟩]⟩ := by
  have h := (register_indexes_nonfatal
    [("a", ⟨true, false, false, false, none, false, none⟩)] (.error ())
    (by rintro x hx; cases hx)).2 () rfl
  obtain ⟨ms, hms, hrun⟩ := h
  rw [hrun]
  have hb : buildModels
      [("a", ⟨true, false, false, false, none, false, none⟩)]
      (indexNames
        [("a", ⟨true, false, false, false, none, false, none⟩)]) =
      some [(⟨[("a", BVal.vInt 1)],
        some ⟨false, none, none⟩⟩ : IndexModelM)] := rfl
  rw [hb] at hms
  rw [(Option.some_inj.1 hms).symm]

/-- Counterexample to C8 as stated: a live orphan index whose options
carry no declared name makes the drop loop unwrap `None` — the pass
aborts (modelled as `none`) instead of completing normally. -/
theorem register_indexes_unnamed_orphan_aborts_cex :
    registerIndexesRun []
      (.ok [.ok ⟨[("b", BVal.vInt 1)], some ⟨false, none, none⟩⟩]) =
      none := rfl

/-! ### Idempotence of reconciliation (C2)

One key step either leaves the state alone, erases one desired name, or
appends its descriptor's declared name to the drop schedule; the branch
taken never depends on the accumulated drop list. -/

theorem keyStep_cases (o : Option IndexOptionsM) (A : List String)
    (k : String) :
    (∀ R, keyStep o (A, R) k = (A, R)) ∨
    (∃ m, m ∈ A ∧ ∀ R, keyStep o (A, R) k = (A.erase m, R)) ∨
    (∃ ro, o = some ro ∧
      ∀ R, keyStep o (A, R) k = (A, R ++ [ro.name])) := by
  cases o with
  | none =>
    by_cases h1 : k = "_id"
    · refine Or.inl fun R => ?_
      show (if k = "_id" then (A, R) else _) = (A, R)
      rw [if_pos h1]
    · by_cases h2 : k ∈ A
      · refine Or.inr (Or.inl ⟨k, h2, fun R => ?_⟩)
        show (if k = "_id" then (A, R) else if k ∈ A then (A.erase k, R)
          else (A, R)) = (A.erase k, R)
        rw [if_neg h1, if_pos h2]
      · refine Or.inl fun R => ?_
        show (if k = "_id" then (A, R) else if k ∈ A then (A.erase k, R)
          else (A, R)) = (A, R)
        rw [if_neg h1, if_neg h2]
  | some ro =>
    obtain ⟨uq, nmo, dl⟩ := ro
    by_cases h1 : k = "_id"
    · refine Or.inl fun R => ?_
      show (if k = "_id" then (A, R) else _) = (A, R)
      rw [if_pos h1]
    · by_cases h2 : k ∈ A
      · refine Or.inr (Or.inl ⟨k, h2, fun R => ?_⟩)
        cases dl with
        | none =>
          show (if k = "_id" then (A, R) else if k ∈ A then (A.erase k, R)
            else (A, R ++ [nmo])) = (A.erase k, R)
          rw [if_neg h1, if_pos h2]
        | some lang =>
          cases nmo with
          | none =>
            show (if k = "_id" then (A, R)
              else if k ∈ A then (A.erase k, R)
              else (A, R ++ [none])) = (A.erase k, R)
            rw [if_neg h1, if_pos h2]
          | some nm =>
            show (if k = "_id" then (A, R)
              else if k ∈ A then (A.erase k, R)
              else if nm ∈ A then (A.erase nm, R)
              else (A, R ++ [some nm])) = (A.erase k, R)
            rw [if_neg h1, if_pos h2]
      · cases dl with
        | none =>
          refine Or.inr (Or.inr ⟨⟨uq, nmo, none⟩, rfl, fun R => ?_⟩)
          show (if k = "_id" then (A, R) else if k ∈ A then (A.erase k, R)
            else (A, R ++ [nmo])) = (A, R ++ [nmo])
          rw [if_neg h1, if_neg h2]
        | some lang =>
          cases nmo with
          | none =>
            refine Or.inr (Or.inr ⟨⟨uq, none, some lang⟩, rfl, fun R => ?_⟩)
            show (if k = "_id" then (A, R)
              else if k ∈ A then (A.erase k, R)
              else (A, R ++ [none])) = (A, R ++ [none])
            rw [if_neg h1, if_neg h2]
          | some nm =>
            by_cases h3 : nm ∈ A
            · refine Or.inr (Or.inl ⟨nm, h3, fun R => ?_⟩)
              show (if k = "_id" then (A, R)
                else if k ∈ A then (A.erase k, R)
                else if nm ∈ A then (A.erase nm, R)
                else (A, R ++ [some nm])) = (A.erase nm, R)
              rw [if_neg h1, if_neg h2, if_pos h3]
            · refine Or.inr (Or.inr
                ⟨⟨uq, some nm, some lang⟩, rfl, fun R => ?_⟩)
              show (if k = "_id" then (A, R)
                else if k ∈ A then (A.erase k, R)
                else if nm ∈ A then (A.erase nm, R)
                else (A, R ++ [some nm])) = (A, R ++ [some nm])
              rw [if_neg h1, if_neg h2, if_neg h3]

/-- The desired-name evolution of the per-key fold is independent of the
accumulated drop list; the drop list only grows by appending. -/
theorem keysFold_state (o : Option IndexOptionsM) :
    ∀ (ks : List (String × BVal)) (A : List String)
      (R : List (Option String)),
      ks.foldl (fun s kv => keyStep o s kv.1) (A, R) =
        ((ks.foldl (fun s kv => keyStep o s kv.1) (A, [])).1,
          R ++ (ks.foldl (fun s kv => keyStep o s kv.1) (A, [])).2) := by
  intro ks
  induction ks with
  | nil =>
    intro A R
    simp
  | cons kv rest ih =>
    intro A R
    rw [List.foldl_cons, List.foldl_cons]
    rcases keyStep_cases o A kv.1 with h | ⟨m, _, h⟩ | ⟨ro, _, h⟩
    · rw [h R, h []]
      exact ih A R
    · rw [h R, h []]
      exact ih (A.erase m) R
    · rw [h R, h []]
      rw [ih A (R ++ [ro.name]), ih A ([] ++ [ro.name])]
      simp [List.append_assoc]

theorem indexStep_state (i : IndexModelM) (A : List String)
    (R : List (Option String)) :
    indexStep (A, R) i =
      ((indexStep (A, []) i).1, R ++ (indexStep (A, []) i).2) :=
  keysFold_state i.options i.keys A R

theorem scanLive_state :
    ∀ (live : List IndexModelM) (A : List String)
      (R : List (Option String)),
      scanLive live (A, R) =
        ((scanLive live (A, [])).1, R ++ (scanLive live (A, [])).2) := by
  intro live
  induction live with
  | nil =>
    intro A R
    simp [scanLive]
  | cons i rest ih =>
    intro A R
    show scanLive rest (indexStep (A, R) i) = _
    rw [indexStep_state i A R]
    rcases he : indexStep (A, []) i with ⟨B, r1⟩
    show scanLive rest (B, R ++ r1) =
      ((scanLive rest (indexStep (A, []) i)).1,
        R ++ (scanLive rest (indexStep (A, []) i)).2)
    rw [he, ih B (R ++ r1), ih B r1]
    simp [List.append_assoc]

/-- Every drop name collected by the per-key fold is either inherited or
is the declared name of the descriptor's own options block. -/
theorem keysFold_push_origin (o : Option IndexOptionsM) :
    ∀ (ks : List (String × BVal)) (A : List String)
      (R : List (Option String)) (x : Option String),
      x ∈ (ks.foldl (fun s kv => keyStep o s kv.1) (A, R)).2 →
      x ∈ R ∨ ∃ ro, o = some ro ∧ x = ro.name := by
  intro ks
  induction ks with
  | nil =>
    intro A R x hx
    exact Or.inl hx
  | cons kv rest ih =>
    intro A R x hx
    rw [List.foldl_cons] at hx
    rcases keyStep_cases o A kv.1 with h | ⟨m, _, h⟩ | ⟨ro, ho, h⟩
    · rw [h R] at hx
      exact ih A R x hx
    · rw [h R] at hx
      exact ih (A.erase m) R x hx
    · rw [h R] at hx
      rcases ih A (R ++ [ro.name]) x hx with hr | hro
      · rcases List.mem_append.1 hr with hr' | hr'
        · exact Or.inl hr'
        · exact Or.inr ⟨ro, ho, List.mem_singleton.1 hr'⟩
      · exact Or.inr hro

theorem scanLive_push_origin :
    ∀ (live : List IndexModelM) (A : List String)
      (R : List (Option String)) (x : Option String),
      x ∈ (scanLive live (A, R)).2 →
      x ∈ R ∨ ∃ i ∈ live, ∃ ro, i.options = some ro ∧ x = ro.name := by
  intro live
  induction live with
  | nil =>
    intro A R x hx
    exact Or.inl hx
  | cons i rest ih =>
    intro A R x hx
    show x ∈ R ∨ _
    replace hx : x ∈ (scanLive rest (indexStep (A, R) i)).2 := hx
    rcases he : indexStep (A, R) i with ⟨B, r1⟩
    rw [he] at hx
    rcases ih B r1 x hx with hr | ⟨j, hj, ro, ho, hn⟩
    · have : x ∈ (indexStep (A, R) i).2 := by rw [he]; exact hr
      rcases keysFold_push_origin i.options i.keys A R x this with
        hr' | ⟨ro, ho, hn⟩
      · exact Or.inl hr'
      · exact Or.inr ⟨i, List.mem_cons_self i rest, ro, ho, hn⟩
    · exact Or.inr ⟨j, List.mem_cons_of_mem i hj, ro, ho, hn⟩

/-- A single-key descriptor's step is one key step. -/
theorem indexStep_single {i : IndexModelM} {k : String} {v : BVal}
    (h : i.keys = [(k, v)]) (s : List String × List (Option String)) :
    indexStep s i = keyStep i.options s k := by
  unfold indexStep
  rw [h]
  rfl

theorem unwrapAll_eq_namesOf :
    ∀ {P : List (Option String)}, (∀ x ∈ P, x.isSome = true) →
      unwrapAll P = some (namesOf P) := by
  intro P
  induction P with
  | nil => exact fun _ => rfl
  | cons x rest ih =>
    intro h
    cases x with
    | none => cases h none (List.mem_cons_self _ _)
    | some y =>
      show (unwrapAll rest).map (y :: ·) = _
      rw [ih (fun x' hx' => h x' (List.mem_cons_of_mem _ hx'))]
      rfl

/-- Every built descriptor has exactly the column name as its single
key. -/
theorem buildIndexModel_keys (n : String) (a : ColumnAttr) :
    ∃ w, (buildIndexModel n a).keys = [(n, w)] := by
  unfold buildIndexModel
  cases a.text with
  | some lang => exact ⟨.vStr "text", rfl⟩
  | none =>
    by_cases hs : a.sphere2d = true
    · rw [if_pos hs]
      exact ⟨.vStr "2dsphere", rfl⟩
    · rw [if_neg hs]
      exact ⟨.vInt (if a.desc then -1 else 1), rfl⟩

theorem scanItems_map_ok (live : List IndexModelM)
    (s : List String × List (Option String)) :
    scanItems (live.map .ok) s = scanLive live s := by
  unfold scanItems scanLive
  rw [List.foldl_map]
  rfl

/-- A non-`_id` key present in the desired set always erases it. -/
theorem keyStep_matched (o : Option IndexOptionsM) (A : List String)
    (R : List (Option String)) (k : String)
    (h1 : k ≠ "_id") (h2 : k ∈ A) :
    keyStep o (A, R) k = (A.erase k, R) := by
  cases o with
  | none =>
    show (if k = "_id" then (A, R) else if k ∈ A then (A.erase k, R)
      else (A, R)) = (A.erase k, R)
    rw [if_neg h1, if_pos h2]
  | some ro =>
    obtain ⟨uq, nmo, dl⟩ := ro
    cases dl with
    | none =>
      show (if k = "_id" then (A, R) else if k ∈ A then (A.erase k, R)
        else (A, R ++ [nmo])) = (A.erase k, R)
      rw [if_neg h1, if_pos h2]
    | some lang =>
      cases nmo with
      | none =>
        show (if k = "_id" then (A, R) else if k ∈ A then (A.erase k, R)
          else (A, R ++ [none])) = (A.erase k, R)
        rw [if_neg h1, if_pos h2]
      | some nm =>
        show (if k = "_id" then (A, R) else if k ∈ A then (A.erase k, R)
          else if nm ∈ A then (A.erase nm, R)
          else (A, R ++ [some nm])) = (A.erase k, R)
        rw [if_neg h1, if_pos h2]

/-- Scanning the descriptors built for the remaining desired names erases
exactly those names and schedules nothing. -/
theorem scan_created (cols : Cols) :
    ∀ (ns : List String) (ms : List IndexModelM)
      (R : List (Option String)),
      buildModels cols ns = some ms → (∀ n ∈ ns, n ≠ "_id") →
      scanLive ms (ns, R) = ([], R) := by
  intro ns
  induction ns with
  | nil =>
    intro ms R hms _
    have : ms = [] := (Option.some_inj.1 hms).symm
    subst this
    rfl
  | cons n rest ih =>
    intro ms R hms hni
    unfold buildModels at hms
    cases hl : lookupAttr cols n with
    | none => rw [hl] at hms; cases hms
    | some a =>
      rw [hl] at hms
      cases hb : buildModels cols rest with
      | none => rw [hb] at hms; cases hms
      | some ms' =>
        rw [hb] at hms
        have hmseq : ms = buildIndexModel n a :: ms' :=
          (Option.some_inj.1 hms).symm
        subst hmseq
        obtain ⟨w, hw⟩ := buildIndexModel_keys n a
        calc scanLive (buildIndexModel n a :: ms') (n :: rest, R)
            = scanLive ms'
              (indexStep (n :: rest, R) (buildIndexModel n a)) := rfl
          _ = scanLive ms'
              (keyStep (buildIndexModel n a).options (n :: rest, R) n) := by
              rw [indexStep_single hw]
          _ = scanLive ms' (rest, R) := by
              rw [keyStep_matched _ _ _ _
                (hni n (List.mem_cons_self n rest))
                (List.mem_cons_self n rest), List.erase_cons_head]
          _ = ([], R) := ih ms' R hb
              (fun n' hn' => hni n' (List.mem_cons_of_mem n hn'))

/-- After one scan, rescanning only the surviving descriptors (those whose
declared name was not scheduled for drop) reproduces exactly the same
desired-name evolution and schedules nothing. -/
theorem survivors_scan :
    ∀ (live : List IndexModelM) (A : List String),
      (∀ i ∈ live, ∃ k v, i.keys = [(k, v)]) →
      (∀ i ∈ live, ∀ ro, i.options = some ro → ro.name.isSome = true) →
      live.Pairwise
        (fun i j => ∀ n, optName i = some n → optName j ≠ some n) →
      scanLive
        (live.filter (keep (namesOf (scanLive live (A, [])).2)))
        (A, []) =
        ((scanLive live (A, [])).1, []) := by
  intro live
  induction live with
  | nil =>
    intro A _ _ _
    rfl
  | cons i rest ih =>
    intro A hk hn hp
    obtain ⟨k, v, hkeys⟩ := hk i (List.mem_cons_self i rest)
    have hp' := List.pairwise_cons.1 hp
    have hk' : ∀ j ∈ rest, ∃ k v, j.keys = [(k, v)] :=
      fun j hj => hk j (List.mem_cons_of_mem i hj)
    have hn' : ∀ j ∈ rest, ∀ ro, j.options = some ro →
        ro.name.isSome = true :=
      fun j hj => hn j (List.mem_cons_of_mem i hj)
    rcases keyStep_cases i.options A k with h | ⟨m, hm, h⟩ | ⟨ro, ho, h⟩
    -- the head descriptor pushes nothing: it survives, and the tail sees
    -- the same desired set in both scans
    · have he : indexStep (A, []) i = (A, []) :=
        (indexStep_single hkeys _).trans (h [])
      have hfull : scanLive (i :: rest) (A, []) =
          scanLive rest (A, []) := by
        show scanLive rest (indexStep (A, []) i) = _
        rw [he]
      rw [hfull]
      have hkeep : keep (namesOf (scanLive rest (A, [])).2) i = true := by
        cases hon : optName i with
        | none => simp [keep, hon]
        | some n =>
          simp only [keep, hon, decide_eq_true_eq]
          intro hmem
          obtain ⟨o, ho', he'⟩ := List.mem_filterMap.1 hmem
          rw [show (id o : Option String) = o from rfl] at he'
          subst he'
          rcases scanLive_push_origin rest A [] (some n) ho' with
            h0 | ⟨j, hj, ro', hjo, hjn⟩
          · cases h0
          · exact (hp'.1 j hj n hon) (by
              show j.options.bind IndexOptionsM.name = some n
              rw [hjo]
              exact hjn.symm)
      rw [List.filter_cons_of_pos hkeep]
      have hstep : scanLive
          (i :: rest.filter (keep (namesOf (scanLive rest (A, [])).2)))
          (A, []) =
          scanLive
            (rest.filter (keep (namesOf (scanLive rest (A, [])).2)))
            (A, []) := by
        show scanLive
          (rest.filter (keep (namesOf (scanLive rest (A, [])).2)))
          (indexStep (A, []) i) = _
        rw [he]
      rw [hstep]
      exact ih A hk' hn' hp'.2
    · have he : indexStep (A, []) i = (A.erase m, []) :=
        (indexStep_single hkeys _).trans (h [])
      have hfull : scanLive (i :: rest) (A, []) =
          scanLive rest (A.erase m, []) := by
        show scanLive rest (indexStep (A, []) i) = _
        rw [he]
      rw [hfull]
      have hkeep : keep (namesOf (scanLive rest (A.erase m, [])).2) i =
          true := by
        cases hon : optName i with
        | none => simp [keep, hon]
        | some n =>
          simp only [keep, hon, decide_eq_true_eq]
          intro hmem
          obtain ⟨o, ho', he'⟩ := List.mem_filterMap.1 hmem
          rw [show (id o : Option String) = o from rfl] at he'
          subst he'
          rcases scanLive_push_origin rest (A.erase m) [] (some n) ho' with
            h0 | ⟨j, hj, ro', hjo, hjn⟩
          · cases h0
          · exact (hp'.1 j hj n hon) (by
              show j.options.bind IndexOptionsM.name = some n
              rw [hjo]
              exact hjn.symm)
      rw [List.filter_cons_of_pos hkeep]
      have hstep : scanLive
          (i :: rest.filter
            (keep (namesOf (scanLive rest (A.erase m, [])).2)))
          (A, []) =
          scanLive
            (rest.filter
              (keep (namesOf (scanLive rest (A.erase m, [])).2)))
            (A.erase m, []) := by
        show scanLive
          (rest.filter
            (keep (namesOf (scanLive rest (A.erase m, [])).2)))
          (indexStep (A, []) i) = _
        rw [he]
      rw [hstep]
      exact ih (A.erase m) hk' hn' hp'.2
    -- the head descriptor schedules its own declared name: it is dropped,
    -- and the name cannot collide with any other descriptor's
    · obtain ⟨n, hron⟩ := Option.isSome_iff_exists.1
        (hn i (List.mem_cons_self i rest) ro ho)
      have honi : optName i = some n := by
        show i.options.bind IndexOptionsM.name = some n
        rw [ho]
        exact hron
      have he : indexStep (A, []) i = (A, [some n]) := by
        refine (indexStep_single hkeys _).trans ?_
        rw [h [], hron]
        rfl
      have hA : (scanLive (i :: rest) (A, [])).1 =
          (scanLive rest (A, [])).1 := by
        show (scanLive rest (indexStep (A, []) i)).1 = _
        rw [he, scanLive_state rest A [some n]]
      have hP : (scanLive (i :: rest) (A, [])).2 =
          some n :: (scanLive rest (A, [])).2 := by
        show (scanLive rest (indexStep (A, []) i)).2 = _
        rw [he, scanLive_state rest A [some n]]
        rfl
      rw [hA, hP]
      have hnames : namesOf (some n :: (scanLive rest (A, [])).2) =
          n :: namesOf (scanLive rest (A, [])).2 := rfl
      rw [hnames]
      have hkeep : keep (n :: namesOf (scanLive rest (A, [])).2) i =
          false := by
        simp [keep, honi]
      rw [List.filter_cons_of_neg (by rw [hkeep]; exact Bool.false_ne_true)]
      have hcongr : rest.filter
          (keep (n :: namesOf (scanLive rest (A, [])).2)) =
          rest.filter (keep (namesOf (scanLive rest (A, [])).2)) := by
        apply List.filter_congr
        intro j hj
        cases hoj : optName j with
        | none => simp [keep, hoj]
        | some m =>
          have hmn : m ≠ n := by
            intro hEq
            subst hEq
            exact (hp'.1 j hj m honi) hoj
          simp only [keep, hoj]
          rw [decide_eq_decide]
          simp [List.mem_cons, hmn]
      rw [hcongr]
      exact ih A hk' hn' hp'.2

/-- C2 (amended): reconciliation is idempotent for live sets of single-key
descriptors (as every descriptor this library creates is) with distinct,
present declared names: a second pass over the live set produced by a
first successful pass computes an empty create batch and an empty drop
list. -/
theorem register_indexes_idempotent_single_key (cols : Cols)
    (live : List IndexModelM)
    (hid : "_id" ∉ indexNames cols)
    (hk : ∀ i ∈ live, ∃ k v, i.keys = [(k, v)])
    (hn : ∀ i ∈ live, ∀ ro, i.options = some ro → ro.name.isSome = true)
    (hp : live.Pairwise
      (fun i j => ∀ n, optName i = some n → optName j ≠ some n))
    (eff : RegEffects)
    (hrun : registerIndexesRun cols (.ok (live.map .ok)) = some eff) :
    registerIndexesRun cols (.ok ((applyRun live eff).map .ok)) =
      some ⟨[], []⟩ := by
  have hdiff : scanDiff cols (.ok (live.map .ok)) =
      scanLive live (indexNames cols, []) :=
    scanItems_map_ok live (indexNames cols, [])
  have hPsome : ∀ x ∈ (scanLive live (indexNames cols, [])).2,
      x.isSome = true := by
    intro x hx
    rcases scanLive_push_origin live (indexNames cols) [] x hx with
      h0 | ⟨i, hi, ro, ho, he⟩
    · cases h0
    · rw [he]
      exact hn i hi ro ho
  have hunw : unwrapAll (scanLive live (indexNames cols, [])).2 =
      some (namesOf (scanLive live (indexNames cols, [])).2) :=
    unwrapAll_eq_namesOf hPsome
  unfold registerIndexesRun at hrun
  rw [hdiff, hunw] at hrun
  cases hbm : buildModels cols (scanLive live (indexNames cols, [])).1 with
  | none =>
    rw [hbm] at hrun
    cases hrun
  | some ms =>
    rw [hbm] at hrun
    have heff : eff = ⟨namesOf (scanLive live (indexNames cols, [])).2,
        ms⟩ := (Option.some_inj.1 hrun).symm
    subst heff
    have hA1 : ∀ n ∈ (scanLive live (indexNames cols, [])).1,
        n ≠ "_id" := by
      intro n hn' hEq
      subst hEq
      apply hid
      have hsub : (scanLive live (indexNames cols, [])).1.Sublist
          (indexNames cols) := by
        rw [← scanItems_map_ok live (indexNames cols, [])]
        exact scanItems_fst_sublist (live.map .ok) _
      exact hsub.subset hn'
    have hsecond : scanLive (applyRun live
        ⟨namesOf (scanLive live (indexNames cols, [])).2, ms⟩)
        (indexNames cols, []) = ([], []) := by
      unfold applyRun
      show scanLive (live.filter
        (keep (namesOf (scanLive live (indexNames cols, [])).2)) ++ ms)
        (indexNames cols, []) = ([], [])
      unfold scanLive
      rw [List.foldl_append]
      have h1 := survivors_scan live (indexNames cols) hk hn hp
      unfold scanLive at h1
      rw [h1]
      have h2 := scan_created cols
        (scanLive live (indexNames cols, [])).1 ms [] hbm hA1
      unfold scanLive at h2
      exact h2
    unfold registerIndexesRun
    have hdiff2 : scanDiff cols (.ok ((applyRun live
        ⟨namesOf (scanLive live (indexNames cols, [])).2, ms⟩).map .ok)) =
        ([], []) := by
      rw [show scanDiff cols (.ok ((applyRun live
        ⟨namesOf (scanLive live (indexNames cols, [])).2, ms⟩).map .ok)) =
        scanItems ((applyRun live
          ⟨namesOf (scanLive live (indexNames cols, [])).2, ms⟩).map .ok)
          (indexNames cols, []) from rfl]
      rw [scanItems_map_ok, hsecond]
    rw [hdiff2]
    rfl

/-- Witness for (amended) C2: one declared ascending column `a`, one
matching single-key live index; the first pass is a no-op and the second
pass over the unchanged live set computes an empty diff. -/
theorem register_indexes_idempotent_single_key_witness :
    registerIndexesRun
      [("a", ⟨true, false, false, false, none, false, none⟩)]
      (.ok ((applyRun
        [⟨[("a", BVal.vInt 1)], some ⟨false, some "a_1", none⟩⟩]
        ⟨[], []⟩).map .ok)) = some ⟨[], []⟩ :=
  register_indexes_idempotent_single_key
    [("a", ⟨true, false, false, false, none, false, none⟩)]
    [⟨[("a", BVal.vInt 1)], some ⟨false, some "a_1", none⟩⟩]
    (by decide)
    (by
      rintro i hi
      rcases List.mem_singleton.1 hi with rfl
      exact ⟨"a", BVal.vInt 1, rfl⟩)
    (by
      rintro i hi ro ho
      rcases List.mem_singleton.1 hi with rfl
      rcases Option.some_inj.1 ho with rfl
      rfl)
    (List.pairwise_singleton _ _)
    ⟨[], []⟩ rfl

/-- Counterexample to C2 as stated: a pre-existing compound live index
`{a: 1, b: 1}` named `ab`, with `a` declared as an indexed column.  The
first pass matches `a` against the compound index yet drops that index by
name because of its orphan key `b`; the second pass then finds no index
with key `a` and computes a non-empty create batch, so the second run
issues a create call. -/
theorem register_indexes_not_idempotent_cex :
    registerIndexesRun
      [("a", ⟨true, false, false, false, none, false, none⟩)]
      (.ok ([(⟨[("a", BVal.vInt 1), ("b", BVal.vInt 1)],
        some ⟨false, some "ab", none⟩⟩ : IndexModelM)].map .ok)) =
      some ⟨["ab"], []⟩ ∧
    registerIndexesRun
      [("a", ⟨true, false, false, false, none, false, none⟩)]
      (.ok ((applyRun
        [⟨[("a", BVal.vInt 1), ("b", BVal.vInt 1)],
          some ⟨false, some "ab", none⟩⟩]
        ⟨["ab"], []⟩).map .ok)) =
      some ⟨[], [⟨[("a", BVal.vInt 1)], some ⟨false, none, none⟩⟩]⟩ :=
  ⟨rfl, rfl⟩

end MongoRO
